import Mathlib

/-!
Shallow embedding of the `h4sh` open-addressing hash table (`src/main.rs`)
and verification of its specification.

The Rust source is embedded as executable Lean definitions:
machine integers (`usize`) become `Nat` with explicit `% 2^64` where the
source relies on wrapping arithmetic; the backing `Vec` becomes a `List`;
loops become fueled recursions (the `get_index` scan is bounded by the
source itself, the `insert` probing `while` loop and the `insert → extend
→ insert` recursion receive exactly the depth the source can use on tables
built through the public API, any shortfall or failed `assert!` yielding
`none`).
-/

set_option maxHeartbeats 1000000
set_option linter.unusedSectionVars false
set_option linter.unusedVariables false

namespace H4sh

/-- Number of values of a 64-bit `usize`; `usize` arithmetic wraps mod this. -/
def wordSize : Nat := 2 ^ 64

/-- The `Hashable` trait of the source: a key yields a `usize` digest. -/
class Hashable (α : Type) where
  hash : α → Nat

/-- One DJB2 step exactly as the source writes it for `String`:
`res = ((res << 5).wrapping_add(res)).wrapping_add(c.into())`, on `usize`. -/
def djb2Step (res c : Nat) : Nat :=
  (((res <<< 5) % wordSize + res) % wordSize + c) % wordSize

/-- `impl Hashable for String`: fold the DJB2 step over the byte sequence,
accumulator seeded to 5381.  Text keys are modelled by their byte lists. -/
def stringHash (bytes : List Nat) : Nat :=
  bytes.foldl djb2Step 5381

instance : Hashable (List Nat) := ⟨stringHash⟩

/-- `impl Hashable for usize`: the digest is the key itself. -/
def usizeHash (n : Nat) : Nat := n

instance : Hashable Nat := ⟨usizeHash⟩

/-- The spec's formulation of one DJB2 step:
`accumulator = (accumulator * 33 + c) mod 2^W`. -/
def djb2SpecStep (res c : Nat) : Nat := (res * 33 + c) % wordSize

/-- The spec's formulation of the DJB2 digest, for comparison with
`stringHash` (which is transcribed from the source). -/
def djb2Spec (bytes : List Nat) : Nat := bytes.foldl djb2SpecStep 5381

/-- `HashCell` of the source: one backing-array slot. -/
structure HashCell (K V : Type) where
  key : K
  value : V
  taken : Bool
deriving DecidableEq

/-- `#[derive(Default)]`: key and value default, `taken = false`. -/
instance instInhabitedHashCell {K V : Type} [Inhabited K] [Inhabited V] :
    Inhabited (HashCell K V) := ⟨⟨default, default, false⟩⟩

/-- `HashTable` of the source: backing array of cells plus occupancy count. -/
structure HashTable (K V : Type) where
  cells : List (HashCell K V)
  taken_count : Nat
deriving DecidableEq

section Table

variable {K V : Type} [DecidableEq K] [Hashable K] [Inhabited K] [Inhabited V]

/-- `HashTable::new()`: 11 default (unoccupied) cells, `taken_count = 0`. -/
def HashTable.new : HashTable K V :=
  ⟨List.replicate 11 default, 0⟩

/-- The scan of `get_index`: starting at `index`, repeatedly stop at an
unoccupied cell or at a cell holding `k`, else advance to `(index+1) % L`;
the source bounds the scan by `cells.len()` iterations (the `fuel`). -/
def probeLoop (cells : List (HashCell K V)) (k : K) : Nat → Nat → Nat
  | index, 0 => index
  | index, fuel + 1 =>
    let c := cells.getD index default
    if c.taken = false then index
    else if c.key = k then index
    else probeLoop cells k ((index + 1) % cells.length) fuel

/-- `HashTable::get_index`: run the bounded scan from `hash(key) % L`, then
return the final index iff it holds an occupied cell whose key is `key`. -/
def get_index (t : HashTable K V) (k : K) : Option Nat :=
  let stop := probeLoop t.cells k (Hashable.hash k % t.cells.length) t.cells.length
  let c := t.cells.getD stop default
  if c.taken = true ∧ c.key = k then some stop else none

/-- `HashTable::get`: the value of the cell found by `get_index`, if any. -/
def get (t : HashTable K V) (k : K) : Option V :=
  (get_index t k).map fun i => (t.cells.getD i default).value

/-- `HashTable::get_mut` resolves the same cell as `get`; the embedding
returns the value the mutable reference would point at (writing through
that reference is `writeThrough` below). -/
def get_mut (t : HashTable K V) (k : K) : Option V :=
  get t k

/-- Writing through the reference returned by `get_mut` (as the benchmark
caller does with `*value += 1`): replace the value of the resolved cell. -/
def writeThrough (t : HashTable K V) (k : K) (v : V) : HashTable K V :=
  match get_index t k with
  | some i => ⟨t.cells.set i { t.cells.getD i default with value := v }, t.taken_count⟩
  | none => t

/-- The `while self.cells[index].taken` loop of `insert`: find the first
unoccupied slot from `index`, advancing mod `L`.  `fuel = L` visits every
slot; `none` models the loop failing to terminate. -/
def findFree (cells : List (HashCell K V)) : Nat → Nat → Option Nat
  | _, 0 => none
  | index, fuel + 1 =>
    if (cells.getD index default).taken = true then
      findFree cells ((index + 1) % cells.length) fuel
    else some index

/-- The tail of `insert`'s non-update branch, run on the table as it stands
after the possible `extend`: `assert!(self.taken_count < self.cells.len())`
(`none` on failure), probe for an unoccupied slot, occupy it, bump the
count.  `none` from the probe models the `while` loop failing to stop. -/
def insertFresh (t1 : HashTable K V) (k : K) (v : V) : Option (HashTable K V) :=
  if t1.taken_count < t1.cells.length then
    match findFree t1.cells (Hashable.hash k % t1.cells.length)
        t1.cells.length with
    | some i =>
      some ⟨t1.cells.set i ⟨k, v, true⟩, t1.taken_count + 1⟩
    | none => none
  else none

/-- `HashTable::insert`, parameterised by the action taken for
`self.extend()` so the `insert → extend → insert` recursion can be unrolled
to the depth the source can reach.  `none` models a failed `assert!` or a
diverging probe loop. -/
def insertWith (doExtend : HashTable K V → Option (HashTable K V))
    (t : HashTable K V) (k : K) (v : V) : Option (HashTable K V) :=
  match get_index t k with
  | some i =>
    -- update path: `*old_value = new_value` through `get_mut`
    some ⟨t.cells.set i { t.cells.getD i default with value := v }, t.taken_count⟩
  | none =>
    match (if t.cells.length ≤ t.taken_count then doExtend t else some t) with
    | none => none
    | some t1 => insertFresh t1 k v

/-- `for cell in self.cells.iter() { if cell.taken { new_self.insert(..) } }`,
the migration loop of `extend`, over a given insertion routine. -/
def extendListVia (ins : HashTable K V → K → V → Option (HashTable K V)) :
    List (HashCell K V) → HashTable K V → Option (HashTable K V)
  | [], acc => some acc
  | c :: rest, acc =>
    if c.taken = true then
      match ins acc c.key c.value with
      | some acc1 => extendListVia ins rest acc1
      | none => none
    else extendListVia ins rest acc

/-- `HashTable::extend`, over a given insertion routine:
`assert!(self.cells.len() > 0)` (`none` on failure), allocate `2*L + 1`
default cells, migrate every occupied cell, and replace `self`. -/
def extendOf (ins : HashTable K V → K → V → Option (HashTable K V))
    (t : HashTable K V) : Option (HashTable K V) :=
  if 0 < t.cells.length then
    extendListVia ins t.cells ⟨List.replicate (t.cells.length * 2 + 1) default, 0⟩
  else none

/-- `insert` as called from inside `extend`'s migration: on a migration the
table never fills up again, so a nested `extend` is unreachable and is
modelled by `none`. -/
def insertBase : HashTable K V → K → V → Option (HashTable K V) :=
  insertWith fun _ => none

/-- `HashTable::extend` as triggered by a public `insert`. -/
def extend : HashTable K V → Option (HashTable K V) :=
  extendOf insertBase

/-- The public `HashTable::insert`. -/
def insert : HashTable K V → K → V → Option (HashTable K V) :=
  insertWith extend

/-- Insert a list of pairs left to right (the driver loop of the claims). -/
def insertAll (t : HashTable K V) : List (K × V) → Option (HashTable K V)
  | [] => some t
  | (k, v) :: rest =>
    match insert t k v with
    | some t1 => insertAll t1 rest
    | none => none

/-- Tables reachable from `new()` through the public API: `insert`, and
mutation of a stored value through the reference handed out by `get_mut`
(`get` itself has no effect on the table). -/
inductive Reachable : HashTable K V → Prop
  | new : Reachable HashTable.new
  | insert {t t' : HashTable K V} {k : K} {v : V} :
      Reachable t → insert t k v = some t' → Reachable t'
  | write {t : HashTable K V} (k : K) (v : V) :
      Reachable t → Reachable (writeThrough t k v)

/-- The scan of `get_index` as a stopping predicate: does the probe starting
at `index` reach an unoccupied cell or a cell holding `k` within `fuel`
visited cells?  (`get_index` runs this scan with `fuel = cells.len()`.) -/
def probeStops (cells : List (HashCell K V)) (k : K) : Nat → Nat → Bool
  | _, 0 => false
  | index, fuel + 1 =>
    let c := cells.getD index default
    if c.taken = false then true
    else if c.key = k then true
    else probeStops cells k ((index + 1) % cells.length) fuel

/-- The cell at slot `i` (the out-of-range default is never occupied). -/
def cellAt (cells : List (HashCell K V)) (i : Nat) : HashCell K V :=
  cells.getD i default

/-- Slot `i` is occupied. -/
def takenAt (cells : List (HashCell K V)) (i : Nat) : Prop :=
  (cellAt cells i).taken = true

/-- The key at slot `i`. -/
def keyAt (cells : List (HashCell K V)) (i : Nat) : K :=
  (cellAt cells i).key

/-- The value at slot `i`. -/
def valueAt (cells : List (HashCell K V)) (i : Nat) : V :=
  (cellAt cells i).value

/-- Number of occupied cells of the backing array. -/
def countTaken (cells : List (HashCell K V)) : Nat :=
  (cells.filter fun c => c.taken).length

/-- Some occupied cell holds key `k`. -/
def storedKey (cells : List (HashCell K V)) (k : K) : Prop :=
  ∃ i, i < cells.length ∧ takenAt cells i ∧ keyAt cells i = k

/-- Some occupied cell holds the pair `(k, v)`. -/
def stored (cells : List (HashCell K V)) (k : K) (v : V) : Prop :=
  ∃ i, i < cells.length ∧ takenAt cells i ∧ keyAt cells i = k ∧ valueAt cells i = v

end Table

/-- Number of forward probe steps from slot `s` to slot `i`, wrapping mod `L`. -/
def dist (L s i : Nat) : Nat :=
  (i + L - s) % L

/-- The capacities a table can have: `11` and its closure under `L ↦ L*2+1`. -/
inductive IsCap : Nat → Prop
  | base : IsCap 11
  | step {n : Nat} : IsCap n → IsCap (n * 2 + 1)

/-- The backing-array length after `n` further insertions of fresh keys,
starting from length `len` with `count` occupied cells: `insert` grows by
`L ↦ L*2+1` exactly when `count` has reached `len`. -/
def capAfter (len count : Nat) : Nat → Nat
  | 0 => len
  | n + 1 =>
    if len ≤ count then capAfter (len * 2 + 1) (count + 1) n
    else capAfter len (count + 1) n

section Invariant

variable {K V : Type} [DecidableEq K] [Hashable K] [Inhabited K] [Inhabited V]

/-- The representation invariant of a table built through the public API:
its length is a legal capacity, `taken_count` counts the occupied cells,
keys are unique across occupied cells, and every occupied cell is reachable
from its key's home slot by a probe run of occupied cells. -/
structure Inv (t : HashTable K V) : Prop where
  cap : IsCap t.cells.length
  count_eq : t.taken_count = countTaken t.cells
  uniq : ∀ i j, i < t.cells.length → j < t.cells.length →
    takenAt t.cells i → takenAt t.cells j → keyAt t.cells i = keyAt t.cells j → i = j
  path : ∀ i, i < t.cells.length → takenAt t.cells i →
    ∀ u, u < dist t.cells.length (Hashable.hash (keyAt t.cells i) % t.cells.length) i →
      takenAt t.cells
        ((Hashable.hash (keyAt t.cells i) % t.cells.length + u) % t.cells.length)

end Invariant

section MoreDefs

variable {K V : Type} [DecidableEq K] [Hashable K] [Inhabited K] [Inhabited V]

instance (cells : List (HashCell K V)) (i : Nat) : Decidable (takenAt cells i) :=
  inferInstanceAs (Decidable ((cellAt cells i).taken = true))

end MoreDefs

/-- The table reached by inserting the keys `0..10` (each with value `0`)
into a fresh table: 11 occupied cells out of 11, i.e. completely full. -/
def fullTable : HashTable Nat Nat :=
  (insertAll HashTable.new ((List.range 11).map fun i => (i, 0))).getD
    HashTable.new

/-! ## Capacities -/

theorem IsCap.eleven_le {n : Nat} (h : IsCap n) : 11 ≤ n := by
  induction h with
  | base => omega
  | step _ ih => omega

theorem IsCap.odd {n : Nat} (h : IsCap n) : Odd n := by
  induction h with
  | base => exact ⟨5, by ring⟩
  | step _ ih => exact ⟨_, by ring⟩

/-! ## The digest capability (claim C6) -/

theorem djb2Step_eq_spec (res c : Nat) : djb2Step res c = djb2SpecStep res c := by
  have h32 : res <<< 5 = res * 32 := by
    rw [Nat.shiftLeft_eq]
  have h33 : res * 32 + (res + c) = res * 33 + c := by ring
  rw [djb2Step, djb2SpecStep, h32, Nat.mod_add_mod, Nat.add_assoc,
    Nat.mod_add_mod, h33]

theorem stringHash_foldl_eq : ∀ (l : List Nat) (a : Nat),
    l.foldl djb2Step a = l.foldl djb2SpecStep a
  | [], _ => rfl
  | c :: l, a => by
    rw [List.foldl_cons, List.foldl_cons, djb2Step_eq_spec]
    exact stringHash_foldl_eq l _

/-- C6: the digest of a text key is the DJB2 hash of its byte sequence
(accumulator seeded to 5381, then `acc = (acc * 33 + c) mod 2^W` for each
byte `c` in order, wrapping with no overflow error); the digest of an
integer key is the key itself; and each digest is deterministic. -/
theorem digest_spec_correct :
    (∀ bytes : List Nat, stringHash bytes = djb2Spec bytes) ∧
    (∀ n : Nat, usizeHash n = n) ∧
    (∀ bytes : List Nat, stringHash bytes = stringHash bytes) := by
  refine ⟨fun bytes => ?_, fun n => rfl, fun bytes => rfl⟩
  exact stringHash_foldl_eq bytes 5381

/-! ## Slot access and counting lemmas -/

section Cells

variable {K V : Type} [DecidableEq K] [Hashable K] [Inhabited K] [Inhabited V]

@[simp] theorem default_taken : (default : HashCell K V).taken = false := rfl

theorem cellAt_eq (cells : List (HashCell K V)) {i : Nat} (h : i < cells.length) :
    cellAt cells i = cells[i] :=
  List.getD_eq_getElem cells default h

theorem cellAt_default (cells : List (HashCell K V)) {i : Nat}
    (h : cells.length ≤ i) : cellAt cells i = default :=
  List.getD_eq_default cells default h

theorem takenAt_lt {cells : List (HashCell K V)} {i : Nat}
    (h : takenAt cells i) : i < cells.length := by
  by_contra hlt
  push_neg at hlt
  rw [takenAt, cellAt_default cells hlt, default_taken] at h
  exact Bool.false_ne_true h

theorem cellAt_set_self (cells : List (HashCell K V)) {i : Nat}
    (c : HashCell K V) (h : i < cells.length) : cellAt (cells.set i c) i = c := by
  rw [cellAt, List.getD_eq_getElem _ _ (by simpa using h), List.getElem_set_self]

theorem cellAt_set_ne (cells : List (HashCell K V)) {i j : Nat}
    (c : HashCell K V) (hne : i ≠ j) : cellAt (cells.set i c) j = cellAt cells j := by
  rcases lt_or_ge j cells.length with hj | hj
  · rw [cellAt, cellAt, List.getD_eq_getElem _ _ (by simpa using hj),
      List.getD_eq_getElem _ _ hj, List.getElem_set_ne hne]
  · rw [cellAt_default _ (by simpa using hj), cellAt_default _ hj]

theorem countTaken_le (cells : List (HashCell K V)) :
    countTaken cells ≤ cells.length :=
  List.length_filter_le _ _

theorem countTaken_cons (c : HashCell K V) (cells : List (HashCell K V)) :
    countTaken (c :: cells) =
      if c.taken = true then countTaken cells + 1 else countTaken cells := by
  rw [countTaken, List.filter_cons]
  split
  · rw [List.length_cons, countTaken]
  · rw [countTaken]

theorem countTaken_set :
    ∀ (cells : List (HashCell K V)) (i : Nat) (c : HashCell K V),
      i < cells.length →
      countTaken (cells.set i c) + (if (cellAt cells i).taken = true then 1 else 0)
        = countTaken cells + (if c.taken = true then 1 else 0)
  | [], i, _, h => by simp at h
  | d :: cells, 0, c, _ => by
    have h0 : cellAt (d :: cells) 0 = d := rfl
    rw [List.set_cons_zero, h0, countTaken_cons, countTaken_cons]
    split <;> split <;> omega
  | d :: cells, i + 1, c, h => by
    have hs : cellAt (d :: cells) (i + 1) = cellAt cells i := rfl
    have hi : i < cells.length := by simpa using h
    have ih := countTaken_set cells i c hi
    rw [List.set_cons_succ, hs, countTaken_cons, countTaken_cons]
    split <;> omega

theorem countTaken_set_keep {cells : List (HashCell K V)} {i : Nat}
    {c : HashCell K V} (hiL : i < cells.length)
    (h : c.taken = (cellAt cells i).taken) :
    countTaken (cells.set i c) = countTaken cells := by
  have hcs := countTaken_set cells i c hiL
  rw [h] at hcs
  cases hc : (cellAt cells i).taken <;> rw [hc] at hcs <;> simp at hcs <;> omega

theorem countTaken_set_flip {cells : List (HashCell K V)} {i : Nat}
    {c : HashCell K V} (hiL : i < cells.length)
    (hold : (cellAt cells i).taken = false) (hnew : c.taken = true) :
    countTaken (cells.set i c) = countTaken cells + 1 := by
  have hcs := countTaken_set cells i c hiL
  rw [hold, hnew] at hcs
  simp at hcs
  omega

theorem countTaken_eq_length (cells : List (HashCell K V))
    (h : ∀ i, i < cells.length → takenAt cells i) :
    countTaken cells = cells.length := by
  have hall : (cells.filter fun c => c.taken) = cells := by
    refine List.filter_eq_self.mpr fun a ha => ?_
    obtain ⟨n, hn, rfl⟩ := List.mem_iff_getElem.mp ha
    have hta := h n hn
    rwa [takenAt, cellAt_eq _ hn] at hta
  rw [countTaken, hall]

theorem takenAt_replicate (n i : Nat) :
    ¬ takenAt (List.replicate n (default : HashCell K V)) i := by
  intro h
  have hi := takenAt_lt h
  rw [takenAt, cellAt_eq _ hi, List.getElem_replicate, default_taken] at h
  exact Bool.false_ne_true h

theorem countTaken_replicate (n : Nat) :
    countTaken (List.replicate n (default : HashCell K V)) = 0 := by
  induction n with
  | zero => rfl
  | succ m ih => rw [List.replicate_succ, countTaken_cons, default_taken, if_neg (by simp), ih]

end Cells

/-! ## Probe-distance arithmetic -/

theorem dist_lt {L : Nat} (hL : 0 < L) (s i : Nat) : dist L s i < L :=
  Nat.mod_lt _ hL

theorem dist_spec {L s i : Nat} (hs : s < L) (hi : i < L) :
    (s + dist L s i) % L = i := by
  rw [dist, Nat.add_mod_mod]
  have h1 : s + (i + L - s) = i + L := by omega
  rw [h1, Nat.add_mod_right, Nat.mod_eq_of_lt hi]

theorem step_mod (L s u : Nat) : ((s + 1) % L + u) % L = (s + (u + 1)) % L := by
  rw [Nat.mod_add_mod]
  congr 1
  omega

theorem dist_unique {L s u : Nat} (hs : s < L) (hu : u < L) :
    dist L s ((s + u) % L) = u := by
  rw [dist, Nat.add_sub_assoc (le_of_lt hs), Nat.mod_add_mod]
  have h1 : s + u + (L - s) = u + L := by omega
  rw [h1, Nat.add_mod_right, Nat.mod_eq_of_lt hu]

theorem probe_ne {L s i u : Nat} (hs : s < L) (hi : i < L)
    (hu : u < dist L s i) : (s + u) % L ≠ i := by
  intro h
  have hL : 0 < L := lt_of_le_of_lt (Nat.zero_le s) hs
  have hu' : u < L := lt_trans hu (dist_lt hL s i)
  have hd := dist_unique hs hu'
  rw [h] at hd
  omega

/-! ## The probe scan -/

section Probe

variable {K V : Type} [DecidableEq K] [Hashable K] [Inhabited K] [Inhabited V]
variable {cells : List (HashCell K V)} {k : K}

theorem probeLoop_stop {s fuel : Nat}
    (h : (cellAt cells s).taken = false ∨ (cellAt cells s).key = k) :
    probeLoop cells k s (fuel + 1) = s := by
  rw [cellAt] at h
  simp only [probeLoop]
  rcases h with h | h
  · rw [if_pos h]
  · by_cases ht : (cells.getD s default).taken = false
    · rw [if_pos ht]
    · rw [if_neg ht, if_pos h]

theorem probeLoop_advance :
    ∀ (d s fuel : Nat), s < cells.length → d ≤ fuel →
      (∀ u, u < d → takenAt cells ((s + u) % cells.length) ∧
        keyAt cells ((s + u) % cells.length) ≠ k) →
      probeLoop cells k s fuel
        = probeLoop cells k ((s + d) % cells.length) (fuel - d)
  | 0, s, fuel, hs, _, _ => by
    rw [Nat.add_zero, Nat.mod_eq_of_lt hs, Nat.sub_zero]
  | d + 1, s, fuel, hs, hd, hpath => by
    obtain ⟨fuel', rfl⟩ : ∃ f, fuel = f + 1 := ⟨fuel - 1, by omega⟩
    have hL : 0 < cells.length := lt_of_le_of_lt (Nat.zero_le s) hs
    have h0 := hpath 0 (Nat.succ_pos d)
    rw [Nat.add_zero, Nat.mod_eq_of_lt hs] at h0
    have ht : ¬ ((cells.getD s default).taken = false) := by
      have htk := h0.1
      rw [takenAt, cellAt] at htk
      rw [htk]
      simp
    have hk : ¬ ((cells.getD s default).key = k) := by
      have hky := h0.2
      rwa [keyAt, cellAt] at hky
    have hstep : probeLoop cells k s (fuel' + 1)
        = probeLoop cells k ((s + 1) % cells.length) fuel' := by
      simp only [probeLoop]
      rw [if_neg ht, if_neg hk]
    have ih := probeLoop_advance d ((s + 1) % cells.length) fuel'
      (Nat.mod_lt _ hL) (by omega) ?_
    · rw [hstep, ih, step_mod]
      congr 1
      omega
    · intro u hu
      rw [step_mod]
      exact hpath (u + 1) (by omega)

theorem probeLoop_lt : ∀ (fuel s : Nat), s < cells.length →
    probeLoop cells k s fuel < cells.length
  | 0, s, hs => by rw [probeLoop]; exact hs
  | fuel + 1, s, hs => by
    have hL : 0 < cells.length := lt_of_le_of_lt (Nat.zero_le s) hs
    simp only [probeLoop]
    split
    · exact hs
    · split
      · exact hs
      · exact probeLoop_lt fuel _ (Nat.mod_lt _ hL)

theorem get_index_some_spec {t : HashTable K V} {i : Nat}
    (h : get_index t k = some i) :
    i < t.cells.length ∧ takenAt t.cells i ∧ keyAt t.cells i = k := by
  simp only [get_index] at h
  split at h
  case isTrue hcond =>
    obtain rfl : _ = i := Option.some.inj h
    exact ⟨takenAt_lt hcond.1, hcond.1, hcond.2⟩
  case isFalse => exact absurd h (by simp)

theorem get_index_none_of_not_stored {t : HashTable K V}
    (h : ¬ storedKey t.cells k) : get_index t k = none := by
  simp only [get_index]
  split
  case isTrue hcond =>
    exact absurd ⟨_, takenAt_lt hcond.1, hcond.1, hcond.2⟩ h
  case isFalse => rfl

theorem get_index_of_stored {t : HashTable K V} {i : Nat} (hInv : Inv t)
    (hi : takenAt t.cells i) (hk : keyAt t.cells i = k) :
    get_index t k = some i := by
  have hiL : i < t.cells.length := takenAt_lt hi
  have hL : 0 < t.cells.length := lt_of_le_of_lt (Nat.zero_le i) hiL
  have hs : Hashable.hash k % t.cells.length < t.cells.length := Nat.mod_lt _ hL
  have hdL : dist t.cells.length (Hashable.hash k % t.cells.length) i
      < t.cells.length := dist_lt hL _ i
  have hpath : ∀ u, u < dist t.cells.length (Hashable.hash k % t.cells.length) i →
      takenAt t.cells ((Hashable.hash k % t.cells.length + u) % t.cells.length) ∧
      keyAt t.cells ((Hashable.hash k % t.cells.length + u) % t.cells.length) ≠ k := by
    intro u hu
    have htk : takenAt t.cells
        ((Hashable.hash k % t.cells.length + u) % t.cells.length) := by
      have hp := hInv.path i hiL hi u (by rw [hk]; exact hu)
      rwa [hk] at hp
    refine ⟨htk, fun hkey => ?_⟩
    have heq := hInv.uniq _ i (Nat.mod_lt _ hL) hiL htk hi (by rw [hkey, hk])
    exact probe_ne hs hiL hu heq
  have hadv := probeLoop_advance
    (dist t.cells.length (Hashable.hash k % t.cells.length) i)
    (Hashable.hash k % t.cells.length) t.cells.length hs (le_of_lt hdL) hpath
  rw [dist_spec hs hiL] at hadv
  obtain ⟨m, hm⟩ : ∃ m, t.cells.length
      - dist t.cells.length (Hashable.hash k % t.cells.length) i = m + 1 :=
    ⟨t.cells.length - dist t.cells.length (Hashable.hash k % t.cells.length) i - 1,
      by omega⟩
  rw [hm] at hadv
  have hfin : probeLoop t.cells k (Hashable.hash k % t.cells.length)
      t.cells.length = i := by
    rw [hadv]
    exact probeLoop_stop (Or.inr hk)
  simp only [get_index]
  rw [hfin, if_pos ⟨hi, hk⟩]

theorem findFree_spec :
    ∀ (fuel s : Nat), s < cells.length →
      (∃ u, u < fuel ∧ ¬ takenAt cells ((s + u) % cells.length)) →
      ∃ d, d < fuel ∧ findFree cells s fuel = some ((s + d) % cells.length) ∧
        ¬ takenAt cells ((s + d) % cells.length) ∧
        ∀ u, u < d → takenAt cells ((s + u) % cells.length)
  | 0, s, _, ⟨u, hu, _⟩ => absurd hu (Nat.not_lt_zero u)
  | fuel + 1, s, hs, ⟨u, hu, hfree⟩ => by
    have hL : 0 < cells.length := lt_of_le_of_lt (Nat.zero_le s) hs
    by_cases ht : takenAt cells s
    · have hu0 : u ≠ 0 := by
        intro h0
        rw [h0, Nat.add_zero, Nat.mod_eq_of_lt hs] at hfree
        exact hfree ht
      obtain ⟨u', rfl⟩ : ∃ w, u = w + 1 := ⟨u - 1, by omega⟩
      have hfree' : ¬ takenAt cells
          (((s + 1) % cells.length + u') % cells.length) := by
        rw [step_mod]; exact hfree
      obtain ⟨d', hd', heq, hfree2, hpath⟩ :=
        findFree_spec fuel ((s + 1) % cells.length) (Nat.mod_lt _ hL)
          ⟨u', by omega, hfree'⟩
      have httrue : (cells.getD s default).taken = true := ht
      refine ⟨d' + 1, by omega, ?_, ?_, ?_⟩
      · simp only [findFree]
        rw [if_pos httrue, heq, step_mod]
      · rw [← step_mod]; exact hfree2
      · intro u hu
        rcases Nat.eq_zero_or_pos u with rfl | hpos
        · rw [Nat.add_zero, Nat.mod_eq_of_lt hs]; exact ht
        · obtain ⟨w, rfl⟩ : ∃ w, u = w + 1 := ⟨u - 1, by omega⟩
          rw [← step_mod]
          exact hpath w (by omega)
    · have htfalse : ¬ ((cells.getD s default).taken = true) := ht
      refine ⟨0, Nat.succ_pos _, ?_, ?_, fun u hu => absurd hu (Nat.not_lt_zero u)⟩
      · simp only [findFree]
        rw [if_neg htfalse, Nat.add_zero, Nat.mod_eq_of_lt hs]
      · rw [Nat.add_zero, Nat.mod_eq_of_lt hs]; exact ht

theorem exists_free {cells : List (HashCell K V)}
    (hcount : countTaken cells < cells.length) {s : Nat} (hs : s < cells.length) :
    ∃ u, u < cells.length ∧ ¬ takenAt cells ((s + u) % cells.length) := by
  by_contra hall
  push_neg at hall
  have hL : 0 < cells.length := lt_of_le_of_lt (Nat.zero_le s) hs
  have htall : ∀ j, j < cells.length → takenAt cells j := by
    intro j hj
    have h := hall (dist cells.length s j) (dist_lt hL s j)
    rwa [dist_spec hs hj] at h
  have := countTaken_eq_length cells htall
  omega

theorem probeStops_of_exists :
    ∀ (fuel s : Nat), s < cells.length →
      (∃ u, u < fuel ∧ ((cellAt cells ((s + u) % cells.length)).taken = false ∨
        (cellAt cells ((s + u) % cells.length)).key = k)) →
      probeStops cells k s fuel = true
  | 0, s, _, ⟨u, hu, _⟩ => absurd hu (Nat.not_lt_zero u)
  | fuel + 1, s, hs, ⟨u, hu, hstop⟩ => by
    have hL : 0 < cells.length := lt_of_le_of_lt (Nat.zero_le s) hs
    simp only [probeStops]
    by_cases ht : (cells.getD s default).taken = false
    · rw [if_pos ht]
    · rw [if_neg ht]
      by_cases hk : (cells.getD s default).key = k
      · rw [if_pos hk]
      · rw [if_neg hk]
        have hu0 : u ≠ 0 := by
          intro h0
          rw [h0, Nat.add_zero, Nat.mod_eq_of_lt hs, cellAt] at hstop
          rcases hstop with h | h
          · exact ht h
          · exact hk h
        obtain ⟨u', rfl⟩ : ∃ w, u = w + 1 := ⟨u - 1, by omega⟩
        refine probeStops_of_exists fuel ((s + 1) % cells.length)
          (Nat.mod_lt _ hL) ⟨u', by omega, ?_⟩
        rw [step_mod]
        exact hstop

end Probe

/-! ## Stored pairs and invariant preservation under cell writes -/

section Stored

variable {K V : Type} [DecidableEq K] [Hashable K] [Inhabited K] [Inhabited V]

theorem storedKey_iff {cells : List (HashCell K V)} {k : K} :
    storedKey cells k ↔ ∃ v, stored cells k v := by
  constructor
  · rintro ⟨i, hiL, ht, hk⟩
    exact ⟨valueAt cells i, i, hiL, ht, hk, rfl⟩
  · rintro ⟨v, i, hiL, ht, hk, _⟩
    exact ⟨i, hiL, ht, hk⟩

theorem not_takenAt_false {cells : List (HashCell K V)} {i : Nat}
    (h : ¬ takenAt cells i) : (cellAt cells i).taken = false := by
  cases hc : (cellAt cells i).taken
  · rfl
  · exact absurd hc h

theorem takenAt_set_mono {cells : List (HashCell K V)} {i : Nat} {k : K} {v : V}
    (hiL : i < cells.length) :
    ∀ j, takenAt cells j → takenAt (cells.set i ⟨k, v, true⟩) j := by
  intro j ht
  by_cases hij : i = j
  · subst hij
    rw [takenAt, cellAt_set_self _ _ hiL]
  · rw [takenAt, cellAt_set_ne _ _ hij]
    exact ht

theorem stored_set_fresh {cells : List (HashCell K V)} {i : Nat} {k : K} {v : V}
    (hiL : i < cells.length) (hnt : ¬ takenAt cells i) (k' : K) (v' : V) :
    stored (cells.set i ⟨k, v, true⟩) k' v' ↔
      (k' = k ∧ v' = v) ∨ stored cells k' v' := by
  constructor
  · rintro ⟨j, hjL, ht, hk, hv⟩
    by_cases hij : i = j
    · subst hij
      rw [keyAt, cellAt_set_self _ _ hiL] at hk
      rw [valueAt, cellAt_set_self _ _ hiL] at hv
      exact Or.inl ⟨hk.symm, hv.symm⟩
    · rw [List.length_set] at hjL
      rw [takenAt, cellAt_set_ne _ _ hij] at ht
      rw [keyAt, cellAt_set_ne _ _ hij] at hk
      rw [valueAt, cellAt_set_ne _ _ hij] at hv
      exact Or.inr ⟨j, hjL, ht, hk, hv⟩
  · rintro (⟨rfl, rfl⟩ | ⟨j, hjL, ht, hk, hv⟩)
    · refine ⟨i, by simpa [List.length_set] using hiL, ?_, ?_, ?_⟩
      · rw [takenAt, cellAt_set_self _ _ hiL]
      · rw [keyAt, cellAt_set_self _ _ hiL]
      · rw [valueAt, cellAt_set_self _ _ hiL]
    · have hij : i ≠ j := fun h => hnt (h ▸ ht)
      refine ⟨j, by simpa [List.length_set] using hjL, ?_, ?_, ?_⟩
      · rw [takenAt, cellAt_set_ne _ _ hij]; exact ht
      · rw [keyAt, cellAt_set_ne _ _ hij]; exact hk
      · rw [valueAt, cellAt_set_ne _ _ hij]; exact hv

theorem stored_set_value_self {cells : List (HashCell K V)} {i : Nat} {k : K}
    {v : V} (hiL : i < cells.length) (ht : takenAt cells i)
    (hk : keyAt cells i = k) :
    stored (cells.set i { cellAt cells i with value := v }) k v := by
  refine ⟨i, by simpa [List.length_set] using hiL, ?_, ?_, ?_⟩
  · rw [takenAt, cellAt_set_self _ _ hiL]
    exact ht
  · rw [keyAt, cellAt_set_self _ _ hiL]
    exact hk
  · rw [valueAt, cellAt_set_self _ _ hiL]

theorem stored_set_value_other {cells : List (HashCell K V)} {i : Nat} {k : K}
    {v : V} (hiL : i < cells.length) (hk : keyAt cells i = k)
    (k' : K) (v' : V) (hne : k' ≠ k) :
    stored (cells.set i { cellAt cells i with value := v }) k' v' ↔
      stored cells k' v' := by
  constructor
  · rintro ⟨j, hjL, ht, hkj, hvj⟩
    by_cases hij : i = j
    · subst hij
      rw [keyAt, cellAt_set_self _ _ hiL] at hkj
      rw [keyAt] at hk
      exact absurd (hkj.symm.trans hk) hne
    · rw [List.length_set] at hjL
      rw [takenAt, cellAt_set_ne _ _ hij] at ht
      rw [keyAt, cellAt_set_ne _ _ hij] at hkj
      rw [valueAt, cellAt_set_ne _ _ hij] at hvj
      exact ⟨j, hjL, ht, hkj, hvj⟩
  · rintro ⟨j, hjL, ht, hkj, hvj⟩
    have hij : i ≠ j := by
      intro h
      subst h
      exact hne (hkj.symm.trans hk)
    refine ⟨j, by simpa [List.length_set] using hjL, ?_, ?_, ?_⟩
    · rw [takenAt, cellAt_set_ne _ _ hij]; exact ht
    · rw [keyAt, cellAt_set_ne _ _ hij]; exact hkj
    · rw [valueAt, cellAt_set_ne _ _ hij]; exact hvj

theorem Inv_set_value {t : HashTable K V} {i : Nat} {v : V} (hInv : Inv t)
    (hi : takenAt t.cells i) :
    Inv ⟨t.cells.set i { cellAt t.cells i with value := v }, t.taken_count⟩ := by
  have hiL : i < t.cells.length := takenAt_lt hi
  have htk : ∀ j, takenAt (t.cells.set i { cellAt t.cells i with value := v }) j
      ↔ takenAt t.cells j := by
    intro j
    by_cases hij : i = j
    · subst hij
      rw [takenAt, takenAt, cellAt_set_self _ _ hiL]
    · rw [takenAt, takenAt, cellAt_set_ne _ _ hij]
  have hky : ∀ j, keyAt (t.cells.set i { cellAt t.cells i with value := v }) j
      = keyAt t.cells j := by
    intro j
    by_cases hij : i = j
    · subst hij
      rw [keyAt, keyAt, cellAt_set_self _ _ hiL]
    · rw [keyAt, keyAt, cellAt_set_ne _ _ hij]
  refine ⟨?_, ?_, ?_, ?_⟩
  · simpa [List.length_set] using hInv.cap
  · show t.taken_count
      = countTaken (t.cells.set i { cellAt t.cells i with value := v })
    rw [countTaken_set_keep (c := { cellAt t.cells i with value := v }) hiL rfl]
    exact hInv.count_eq
  · intro a b haL hbL hta htb hkeq
    simp only [List.length_set] at haL hbL
    rw [htk] at hta htb
    rw [hky, hky] at hkeq
    exact hInv.uniq a b haL hbL hta htb hkeq
  · intro j hjL htj u hu
    simp only [List.length_set] at hjL ⊢
    rw [htk] at htj
    rw [hky] at hu ⊢
    rw [htk]
    simp only [List.length_set] at hu
    exact hInv.path j hjL htj u hu

theorem Inv_set_fresh {t : HashTable K V} {i : Nat} {k : K} {v : V}
    (hInv : Inv t) (hfresh : ¬ storedKey t.cells k) (hiL : i < t.cells.length)
    (hnt : ¬ takenAt t.cells i)
    (hpath : ∀ u, u < dist t.cells.length (Hashable.hash k % t.cells.length) i →
      takenAt t.cells ((Hashable.hash k % t.cells.length + u) % t.cells.length)) :
    Inv ⟨t.cells.set i ⟨k, v, true⟩, t.taken_count + 1⟩ := by
  refine ⟨?_, ?_, ?_, ?_⟩
  · simpa [List.length_set] using hInv.cap
  · show t.taken_count + 1 = countTaken (t.cells.set i ⟨k, v, true⟩)
    rw [countTaken_set_flip hiL (not_takenAt_false hnt) rfl]
    rw [hInv.count_eq]
  · intro a b haL hbL hta htb hkeq
    dsimp only at haL hbL hta htb hkeq
    simp only [List.length_set] at haL hbL
    by_cases hia : i = a <;> by_cases hib : i = b
    · exact hia.symm.trans hib
    · exfalso
      rw [← hia] at hkeq
      simp only [keyAt] at hkeq
      rw [cellAt_set_self _ _ hiL, cellAt_set_ne _ _ hib] at hkeq
      rw [takenAt, cellAt_set_ne _ _ hib] at htb
      exact hfresh ⟨b, hbL, htb, hkeq.symm⟩
    · exfalso
      rw [← hib] at hkeq
      simp only [keyAt] at hkeq
      rw [cellAt_set_self _ _ hiL, cellAt_set_ne _ _ hia] at hkeq
      rw [takenAt, cellAt_set_ne _ _ hia] at hta
      exact hfresh ⟨a, haL, hta, hkeq⟩
    · rw [takenAt, cellAt_set_ne _ _ hia] at hta
      rw [takenAt, cellAt_set_ne _ _ hib] at htb
      simp only [keyAt] at hkeq
      rw [cellAt_set_ne _ _ hia, cellAt_set_ne _ _ hib] at hkeq
      exact hInv.uniq a b haL hbL hta htb hkeq
  · intro j hjL htj u hu
    dsimp only at hjL htj hu ⊢
    simp only [List.length_set] at hjL hu ⊢
    by_cases hij : i = j
    · subst hij
      rw [keyAt, cellAt_set_self _ _ hiL] at hu ⊢
      exact takenAt_set_mono hiL _ (hpath u hu)
    · rw [takenAt, cellAt_set_ne _ _ hij] at htj
      rw [keyAt, cellAt_set_ne _ _ hij] at hu ⊢
      exact takenAt_set_mono hiL _ (hInv.path j hjL htj u hu)

end Stored

/-! ## Specifications of the operations -/

section OpSpecs

variable {K V : Type} [DecidableEq K] [Hashable K] [Inhabited K] [Inhabited V]

theorem stored_unique {t : HashTable K V} (hInv : Inv t) {k : K} {v v' : V}
    (h1 : stored t.cells k v) (h2 : stored t.cells k v') : v = v' := by
  obtain ⟨i, hiL, ht, hk, hv⟩ := h1
  obtain ⟨j, hjL, ht', hk', hv'⟩ := h2
  have hij := hInv.uniq i j hiL hjL ht ht' (by rw [hk, hk'])
  subst hij
  rw [← hv, ← hv']

theorem stored_iff_mem {cells : List (HashCell K V)} {k : K} {v : V} :
    stored cells k v ↔ ∃ c ∈ cells, c.taken = true ∧ c.key = k ∧ c.value = v := by
  constructor
  · rintro ⟨i, hiL, ht, hk, hv⟩
    rw [takenAt, cellAt_eq _ hiL] at ht
    rw [keyAt, cellAt_eq _ hiL] at hk
    rw [valueAt, cellAt_eq _ hiL] at hv
    exact ⟨cells[i], List.getElem_mem hiL, ht, hk, hv⟩
  · rintro ⟨c, hc, ht, hk, hv⟩
    obtain ⟨n, hn, rfl⟩ := List.mem_iff_getElem.mp hc
    refine ⟨n, hn, ?_, ?_, ?_⟩
    · rw [takenAt, cellAt_eq _ hn]; exact ht
    · rw [keyAt, cellAt_eq _ hn]; exact hk
    · rw [valueAt, cellAt_eq _ hn]; exact hv

theorem pairwise_keys_of_uniq {t : HashTable K V} (hInv : Inv t) :
    List.Pairwise (fun c c' : HashCell K V =>
      c.taken = true → c'.taken = true → c.key ≠ c'.key) t.cells := by
  rw [List.pairwise_iff_getElem]
  intro a b haL hbL hab hta htb hkeq
  have h1 : takenAt t.cells a := by rw [takenAt, cellAt_eq _ haL]; exact hta
  have h2 : takenAt t.cells b := by rw [takenAt, cellAt_eq _ hbL]; exact htb
  have h3 : keyAt t.cells a = keyAt t.cells b := by
    rw [keyAt, keyAt, cellAt_eq _ haL, cellAt_eq _ hbL]; exact hkeq
  exact absurd (hInv.uniq a b haL hbL h1 h2 h3) (Nat.ne_of_lt hab)

theorem get_of_stored {t : HashTable K V} (hInv : Inv t) {k : K} {v : V}
    (h : stored t.cells k v) : get t k = some v := by
  obtain ⟨i, hiL, ht, hk, hv⟩ := h
  rw [get, get_index_of_stored hInv ht hk]
  exact congrArg some hv

theorem get_none_of_not_stored {t : HashTable K V} {k : K}
    (h : ¬ storedKey t.cells k) : get t k = none := by
  rw [get, get_index_none_of_not_stored h]
  rfl

theorem insertFresh_spec {t : HashTable K V} {k : K} (v : V) (hInv : Inv t)
    (hfresh : ¬ storedKey t.cells k) (hroom : t.taken_count < t.cells.length) :
    ∃ t', insertFresh t k v = some t' ∧ Inv t' ∧
      stored t'.cells k v ∧
      (∀ k' v', k' ≠ k → (stored t'.cells k' v' ↔ stored t.cells k' v')) ∧
      (∀ k', storedKey t'.cells k' ↔ k' = k ∨ storedKey t.cells k') ∧
      t'.cells.length = t.cells.length ∧
      t'.taken_count = t.taken_count + 1 := by
  have hL : 0 < t.cells.length := lt_of_le_of_lt (Nat.zero_le _) hroom
  have hs : Hashable.hash k % t.cells.length < t.cells.length := Nat.mod_lt _ hL
  have hcnt : countTaken t.cells < t.cells.length := by
    rw [← hInv.count_eq]; exact hroom
  obtain ⟨d, hdfuel, heq, hfree, hpath⟩ :=
    findFree_spec t.cells.length (Hashable.hash k % t.cells.length) hs
      (exists_free hcnt hs)
  have hiL : (Hashable.hash k % t.cells.length + d) % t.cells.length
      < t.cells.length := Nat.mod_lt _ hL
  have hdist : dist t.cells.length (Hashable.hash k % t.cells.length)
      ((Hashable.hash k % t.cells.length + d) % t.cells.length) = d :=
    dist_unique hs hdfuel
  refine ⟨⟨t.cells.set ((Hashable.hash k % t.cells.length + d) % t.cells.length)
      ⟨k, v, true⟩, t.taken_count + 1⟩, ?_, ?_, ?_, ?_, ?_, ?_, rfl⟩
  · rw [insertFresh, if_pos hroom, heq]
  · refine Inv_set_fresh hInv hfresh hiL hfree fun u hu => ?_
    rw [hdist] at hu
    exact hpath u hu
  · exact (stored_set_fresh hiL hfree k v).mpr (Or.inl ⟨rfl, rfl⟩)
  · intro k' v' hne
    rw [stored_set_fresh hiL hfree k' v']
    constructor
    · rintro (⟨h1, _⟩ | h)
      · exact absurd h1 hne
      · exact h
    · exact Or.inr
  · intro k'
    rw [storedKey_iff]
    constructor
    · rintro ⟨v', hv'⟩
      rcases (stored_set_fresh hiL hfree k' v').mp hv' with ⟨rfl, _⟩ | h
      · exact Or.inl rfl
      · exact Or.inr (storedKey_iff.mpr ⟨v', h⟩)
    · rintro (rfl | h)
      · exact ⟨v, (stored_set_fresh hiL hfree k' v).mpr (Or.inl ⟨rfl, rfl⟩)⟩
      · obtain ⟨v', hv'⟩ := storedKey_iff.mp h
        exact ⟨v', (stored_set_fresh hiL hfree k' v').mpr (Or.inr hv')⟩
  · exact List.length_set t.cells _ _

theorem extendListVia_spec :
    ∀ (rest : List (HashCell K V)) (acc : HashTable K V), Inv acc →
      acc.taken_count + countTaken rest ≤ acc.cells.length →
      (∀ c ∈ rest, c.taken = true → ¬ storedKey acc.cells c.key) →
      List.Pairwise (fun c c' : HashCell K V =>
        c.taken = true → c'.taken = true → c.key ≠ c'.key) rest →
      ∃ t', extendListVia insertBase rest acc = some t' ∧ Inv t' ∧
        t'.cells.length = acc.cells.length ∧
        t'.taken_count = acc.taken_count + countTaken rest ∧
        (∀ k v, stored t'.cells k v ↔
          (stored acc.cells k v ∨ ∃ c ∈ rest, c.taken = true ∧ c.key = k ∧ c.value = v))
  | [], acc, hInv, _, _, _ => by
    refine ⟨acc, rfl, hInv, rfl, by simp [countTaken], fun k v => by simp⟩
  | c :: rest, acc, hInv, hbound, hfreshL, hpw => by
    by_cases hct : c.taken = true
    · have hfresh : ¬ storedKey acc.cells c.key :=
        hfreshL c (List.mem_cons_self c rest) hct
      have hcons : countTaken (c :: rest) = countTaken rest + 1 := by
        rw [countTaken_cons, if_pos hct]
      have hroom : acc.taken_count < acc.cells.length := by
        rw [hcons] at hbound; omega
      have hnone : get_index acc c.key = none := get_index_none_of_not_stored hfresh
      obtain ⟨acc1, heq1, hInv1, hst1, hpres1, hsk1, hlen1, hcnt1⟩ :=
        insertFresh_spec c.value hInv hfresh hroom
      have hins : insertBase acc c.key c.value = some acc1 := by
        have hcond : ¬ acc.cells.length ≤ acc.taken_count := by omega
        simp only [insertBase, insertWith, hnone, if_neg hcond]
        exact heq1
      have hfreshL1 : ∀ c' ∈ rest, c'.taken = true → ¬ storedKey acc1.cells c'.key := by
        intro c' hc' htc'
        rw [hsk1]
        rintro (heqk | hsk)
        · exact List.rel_of_pairwise_cons hpw hc' hct htc' heqk.symm
        · exact hfreshL c' (List.mem_cons_of_mem _ hc') htc' hsk
      have hbound1 : acc1.taken_count + countTaken rest ≤ acc1.cells.length := by
        rw [hcons] at hbound
        rw [hcnt1, hlen1]
        omega
      obtain ⟨t', heqT, hInvT, hlenT, hcntT, hstT⟩ :=
        extendListVia_spec rest acc1 hInv1 hbound1 hfreshL1 hpw.of_cons
      refine ⟨t', ?_, hInvT, by rw [hlenT, hlen1], ?_, ?_⟩
      · simp only [extendListVia, if_pos hct, hins]
        exact heqT
      · rw [hcntT, hcnt1, hcons]
        omega
      · intro k v
        rw [hstT]
        constructor
        · rintro (hs1 | hmem)
          · by_cases hk : k = c.key
            · subst hk
              have hv : v = c.value := stored_unique hInv1 hs1 hst1
              exact Or.inr ⟨c, List.mem_cons_self c rest, hct, rfl, hv.symm⟩
            · exact Or.inl ((hpres1 k v hk).mp hs1)
          · obtain ⟨c', hc', hmem'⟩ := hmem
            exact Or.inr ⟨c', List.mem_cons_of_mem _ hc', hmem'⟩
        · rintro (hs | ⟨c', hc', htc', hkc', hvc'⟩)
          · have hk : k ≠ c.key := by
              rintro rfl
              exact hfresh (storedKey_iff.mpr ⟨v, hs⟩)
            exact Or.inl ((hpres1 k v hk).mpr hs)
          · rcases List.mem_cons.mp hc' with rfl | hmem
            · subst hkc'
              subst hvc'
              exact Or.inl hst1
            · exact Or.inr ⟨c', hmem, htc', hkc', hvc'⟩
    · have hcons : countTaken (c :: rest) = countTaken rest := by
        rw [countTaken_cons, if_neg hct]
      rw [hcons] at hbound
      have hfreshL' : ∀ c' ∈ rest, c'.taken = true → ¬ storedKey acc.cells c'.key :=
        fun c' hc' => hfreshL c' (List.mem_cons_of_mem _ hc')
      obtain ⟨t', heqT, hInvT, hlenT, hcntT, hstT⟩ :=
        extendListVia_spec rest acc hInv hbound hfreshL' hpw.of_cons
      refine ⟨t', ?_, hInvT, hlenT, by rw [hcntT, hcons], ?_⟩
      · simp only [extendListVia, if_neg hct]
        exact heqT
      · intro k v
        rw [hstT]
        constructor
        · rintro (hs | ⟨c', hc', hmem'⟩)
          · exact Or.inl hs
          · exact Or.inr ⟨c', List.mem_cons_of_mem _ hc', hmem'⟩
        · rintro (hs | ⟨c', hc', htc', hkc', hvc'⟩)
          · exact Or.inl hs
          · rcases List.mem_cons.mp hc' with rfl | hmem
            · exact absurd htc' hct
            · exact Or.inr ⟨c', hmem, htc', hkc', hvc'⟩

theorem extend_spec {t : HashTable K V} (hInv : Inv t)
    (hL : 0 < t.cells.length) :
    ∃ t', extend t = some t' ∧ Inv t' ∧
      t'.cells.length = t.cells.length * 2 + 1 ∧
      t'.taken_count = t.taken_count ∧
      (∀ k v, stored t'.cells k v ↔ stored t.cells k v) := by
  have hInvF : Inv (⟨List.replicate (t.cells.length * 2 + 1) default, 0⟩
      : HashTable K V) := by
    refine ⟨?_, ?_, ?_, ?_⟩
    · simpa using hInv.cap.step
    · show 0 = countTaken (List.replicate (t.cells.length * 2 + 1) default)
      rw [countTaken_replicate]
    · intro a b _ _ hta _ _
      exact absurd hta (takenAt_replicate _ _)
    · intro j _ htj
      exact absurd htj (takenAt_replicate _ _)
  have hbound : (⟨List.replicate (t.cells.length * 2 + 1) default, 0⟩
      : HashTable K V).taken_count + countTaken t.cells
      ≤ (⟨List.replicate (t.cells.length * 2 + 1) default, 0⟩
        : HashTable K V).cells.length := by
    have := countTaken_le t.cells
    simp only [List.length_replicate]
    omega
  have hfreshL : ∀ c ∈ t.cells, c.taken = true →
      ¬ storedKey (⟨List.replicate (t.cells.length * 2 + 1) default, 0⟩
        : HashTable K V).cells c.key := by
    rintro c _ _ ⟨i, _, ht, _⟩
    exact absurd ht (takenAt_replicate _ _)
  obtain ⟨t', heq, hInv', hlen', hcnt', hst'⟩ :=
    extendListVia_spec t.cells
      ⟨List.replicate (t.cells.length * 2 + 1) default, 0⟩
      hInvF hbound hfreshL (pairwise_keys_of_uniq hInv)
  refine ⟨t', ?_, hInv', ?_, ?_, ?_⟩
  · rw [extend, extendOf, if_pos hL]
    exact heq
  · rw [hlen']
    simp [List.length_replicate]
  · rw [hcnt', hInv.count_eq]
    simp
  · intro k v
    rw [hst']
    constructor
    · rintro (⟨i, _, ht, _⟩ | hmem)
      · exact absurd ht (takenAt_replicate _ _)
      · exact stored_iff_mem.mpr hmem
    · intro h
      exact Or.inr (stored_iff_mem.mp h)

/-- Master specification of the public `insert` on a table satisfying the
representation invariant: it succeeds (no `assert!` fires, every loop
stops), preserves the invariant, stores exactly the new pair for its key,
leaves every other key's binding unchanged, and grows by `L ↦ L*2+1`
exactly when the table was full and the key was absent. -/
theorem insert_total {t : HashTable K V} (hInv : Inv t) (k : K) (v : V) :
    ∃ t', insert t k v = some t' ∧ Inv t' ∧
      stored t'.cells k v ∧
      (∀ k' v', k' ≠ k → (stored t'.cells k' v' ↔ stored t.cells k' v')) ∧
      (∀ k', storedKey t'.cells k' ↔ k' = k ∨ storedKey t.cells k') ∧
      t.cells.length ≤ t'.cells.length ∧
      (storedKey t.cells k →
        t'.taken_count = t.taken_count ∧ t'.cells.length = t.cells.length) ∧
      (¬ storedKey t.cells k →
        t'.taken_count = t.taken_count + 1 ∧
        t'.cells.length = (if t.cells.length ≤ t.taken_count
          then t.cells.length * 2 + 1 else t.cells.length)) := by
  have hL : 0 < t.cells.length := by
    have := hInv.cap.eleven_le
    omega
  by_cases hsk : storedKey t.cells k
  · obtain ⟨i, hiL, ht, hk⟩ := hsk
    have hidx : get_index t k = some i := get_index_of_stored hInv ht hk
    refine ⟨⟨t.cells.set i { cellAt t.cells i with value := v }, t.taken_count⟩,
      ?_, Inv_set_value hInv ht, stored_set_value_self hiL ht hk,
      fun k' v' hne => stored_set_value_other hiL hk k' v' hne,
      ?_, by simp [List.length_set], fun _ => ⟨rfl, by simp [List.length_set]⟩,
      fun hno => absurd ⟨i, hiL, ht, hk⟩ hno⟩
    · rw [insert, insertWith, hidx]
      rfl
    · intro k'
      rw [storedKey_iff, storedKey_iff]
      by_cases hk' : k' = k
      · subst hk'
        exact ⟨fun _ => Or.inr ⟨valueAt t.cells i, i, hiL, ht, hk, rfl⟩,
          fun _ => ⟨v, stored_set_value_self hiL ht hk⟩⟩
      · constructor
        · rintro ⟨v', hv'⟩
          exact Or.inr ⟨v', (stored_set_value_other hiL hk k' v' hk').mp hv'⟩
        · rintro (heq | ⟨v', hv'⟩)
          · exact absurd heq hk'
          · exact ⟨v', (stored_set_value_other hiL hk k' v' hk').mpr hv'⟩
  · have hnone : get_index t k = none := get_index_none_of_not_stored hsk
    by_cases hfull : t.cells.length ≤ t.taken_count
    · obtain ⟨t2, heq2, hInv2, hlen2, hcnt2, hst2⟩ := extend_spec hInv hL
      have hsk2 : ¬ storedKey t2.cells k := by
        rw [storedKey_iff]
        rintro ⟨v', hv'⟩
        exact hsk (storedKey_iff.mpr ⟨v', (hst2 k v').mp hv'⟩)
      have hroom2 : t2.taken_count < t2.cells.length := by
        have hcnt := hInv.count_eq
        have hle := countTaken_le t.cells
        rw [hcnt2, hlen2]
        omega
      obtain ⟨t', heq', hInv', hst', hpres', hsk', hlen', hcnt'⟩ :=
        insertFresh_spec v hInv2 hsk2 hroom2
      refine ⟨t', ?_, hInv', hst', ?_, ?_, ?_, fun hyes => absurd hyes hsk, ?_⟩
      · rw [insert, insertWith, hnone, if_pos hfull, heq2]
        exact heq'
      · intro k' v' hne
        rw [hpres' k' v' hne, hst2]
      · intro k'
        rw [hsk' k']
        constructor
        · rintro (rfl | h2)
          · exact Or.inl rfl
          · rw [storedKey_iff] at h2 ⊢
            obtain ⟨v', hv'⟩ := h2
            exact Or.inr ⟨v', (hst2 k' v').mp hv'⟩
        · rintro (rfl | h2)
          · exact Or.inl rfl
          · rw [storedKey_iff] at h2 ⊢
            obtain ⟨v', hv'⟩ := h2
            exact Or.inr ⟨v', (hst2 k' v').mpr hv'⟩
      · rw [hlen', hlen2]
        omega
      · intro _
        rw [if_pos hfull, hcnt', hcnt2, hlen', hlen2]
        exact ⟨rfl, rfl⟩
    · have hroom : t.taken_count < t.cells.length := by omega
      obtain ⟨t', heq', hInv', hst', hpres', hsk', hlen', hcnt'⟩ :=
        insertFresh_spec v hInv hsk hroom
      refine ⟨t', ?_, hInv', hst', hpres', hsk', by omega,
        fun hyes => absurd hyes hsk, fun _ => ⟨hcnt', by rw [if_neg hfull, hlen']⟩⟩
      rw [insert, insertWith, hnone, if_neg hfull]
      exact heq'

end OpSpecs

/-! ## Reachability and driver loops -/

section Reach

variable {K V : Type} [DecidableEq K] [Hashable K] [Inhabited K] [Inhabited V]

theorem Inv_new : Inv (HashTable.new : HashTable K V) := by
  refine ⟨?_, ?_, ?_, ?_⟩
  · show IsCap (List.replicate 11 (default : HashCell K V)).length
    rw [List.length_replicate]
    exact IsCap.base
  · show 0 = countTaken (List.replicate 11 (default : HashCell K V))
    rw [countTaken_replicate]
  · intro a b _ _ hta _ _
    exact absurd hta (takenAt_replicate _ _)
  · intro j _ htj
    exact absurd htj (takenAt_replicate _ _)

theorem Inv_writeThrough {t : HashTable K V} (hInv : Inv t) (k : K) (v : V) :
    Inv (writeThrough t k v) := by
  cases hidx : get_index t k with
  | none => simpa [writeThrough, hidx] using hInv
  | some i =>
    obtain ⟨hiL, ht, hk⟩ := get_index_some_spec hidx
    have hset := Inv_set_value (v := v) hInv ht
    simpa [writeThrough, hidx, cellAt] using hset

theorem reachable_inv {t : HashTable K V} (h : Reachable t) : Inv t := by
  induction h with
  | new => exact Inv_new
  | insert hR heq ih =>
    obtain ⟨t2, heq2, hInv2, _⟩ := insert_total ih _ _
    rw [heq] at heq2
    obtain rfl := Option.some.inj heq2
    exact hInv2
  | write k v hR ih => exact Inv_writeThrough ih k v

theorem reachable_insertAll (ps : List (K × V)) :
    ∀ {t t' : HashTable K V}, Reachable t → insertAll t ps = some t' →
      Reachable t' := by
  induction ps with
  | nil =>
    intro t t' hR h
    obtain rfl := Option.some.inj h
    exact hR
  | cons p ps ih =>
    obtain ⟨k, v⟩ := p
    intro t t' hR h
    simp only [insertAll] at h
    cases hi : insert t k v with
    | none =>
      rw [hi] at h
      exact Option.noConfusion h
    | some t1 =>
      rw [hi] at h
      exact ih (Reachable.insert hR hi) h

theorem insertAll_spec :
    ∀ (ks : List K) (vs : List V) (t : HashTable K V), Inv t →
      ks.Nodup → (∀ k ∈ ks, ¬ storedKey t.cells k) → vs.length = ks.length →
      ∃ t', insertAll t (ks.zip vs) = some t' ∧ Inv t' ∧
        t'.taken_count = t.taken_count + ks.length ∧
        t'.cells.length = capAfter t.cells.length t.taken_count ks.length ∧
        (∀ p ∈ ks.zip vs, stored t'.cells p.1 p.2) ∧
        (∀ k v, k ∉ ks → (stored t'.cells k v ↔ stored t.cells k v))
  | [], vs, t, hInv, _, _, hlen => by
    have hvs : vs = [] := List.eq_nil_of_length_eq_zero (by simpa using hlen)
    subst hvs
    exact ⟨t, rfl, hInv, by simp, rfl, by simp, fun k v _ => Iff.rfl⟩
  | k :: ks, vs, t, hInv, hnd, hfreshL, hlen => by
    obtain ⟨v, vs, rfl⟩ : ∃ w ws, vs = w :: ws := by
      cases vs with
      | nil => simp at hlen
      | cons w ws => exact ⟨w, ws, rfl⟩
    have hlen' : vs.length = ks.length := by simpa using hlen
    have hfresh : ¬ storedKey t.cells k := hfreshL k (List.mem_cons_self _ _)
    obtain ⟨t1, heq1, hInv1, hst1, hpres1, hsk1, hlenle1, hupd1, hfr1⟩ :=
      insert_total hInv k v
    obtain ⟨hcnt1, hlen1⟩ := hfr1 hfresh
    have hnd' : ks.Nodup := hnd.of_cons
    have hkn : k ∉ ks := by
      rw [List.nodup_cons] at hnd
      exact hnd.1
    have hfreshL1 : ∀ k' ∈ ks, ¬ storedKey t1.cells k' := by
      intro k' hk'
      rw [hsk1]
      rintro (rfl | hsk)
      · exact hkn hk'
      · exact hfreshL k' (List.mem_cons_of_mem _ hk') hsk
    obtain ⟨t', heqT, hInvT, hcntT, hlenT, hallT, hpresT⟩ :=
      insertAll_spec ks vs t1 hInv1 hnd' hfreshL1 hlen'
    refine ⟨t', ?_, hInvT, ?_, ?_, ?_, ?_⟩
    · rw [List.zip_cons_cons]
      simp only [insertAll]
      rw [heq1]
      exact heqT
    · rw [hcntT, hcnt1]
      simp only [List.length_cons]
      omega
    · rw [hlenT, hcnt1, hlen1]
      simp only [List.length_cons, capAfter]
      by_cases hc : t.cells.length ≤ t.taken_count
      · rw [if_pos hc, if_pos hc]
      · rw [if_neg hc, if_neg hc]
    · intro p hp
      rw [List.zip_cons_cons] at hp
      rcases List.mem_cons.mp hp with rfl | hmem
      · exact (hpresT k v hkn).mpr hst1
      · exact hallT p hmem
    · intro k' v' hk'
      have hk'k : k' ≠ k := by
        rintro rfl
        exact hk' (List.mem_cons_self _ _)
      have hk'ks : k' ∉ ks := fun h => hk' (List.mem_cons_of_mem _ h)
      rw [hpresT k' v' hk'ks, hpres1 k' v' hk'k]

end Reach

/-! ## The claims -/

section Claims

variable {K V : Type} [DecidableEq K] [Hashable K] [Inhabited K] [Inhabited V]

theorem new_cells_length : (HashTable.new : HashTable K V).cells.length = 11 := by
  simp [HashTable.new]

theorem new_taken_count : (HashTable.new : HashTable K V).taken_count = 0 := rfl

/-- C1: for every key `k` and value `v`, calling `insert(k, v)` on any
reachable table succeeds, and `get(k)` on the result returns `some v`,
the value just inserted. -/
theorem insert_get_roundtrip {t : HashTable K V} (hR : Reachable t)
    (k : K) (v : V) :
    ∃ t', insert t k v = some t' ∧ get t' k = some v := by
  obtain ⟨t', heq, hInv', hst', _⟩ := insert_total (reachable_inv hR) k v
  exact ⟨t', heq, get_of_stored hInv' hst'⟩

theorem insert_get_roundtrip_witness :
    ∃ t', insert (HashTable.new : HashTable Nat Nat) 5 7 = some t' ∧
      get t' 5 = some 7 :=
  insert_get_roundtrip Reachable.new 5 7

/-- C2: inserting 50 distinct keys with (distinct) values into a fresh
table of capacity 11 succeeds, every one of the 50 keys afterwards maps to
the value inserted for it, and the capacity has grown to 95 — through
23, 47 and 95, i.e. at least two `extend()` calls, each of which migrates
every occupied cell into the new array of length `2*L + 1` losing none. -/
theorem growth_preserves_entries (ks : List K) (vs : List V)
    (hks : ks.length = 50) (hvs : vs.length = 50)
    (hnd : ks.Nodup) (hvd : vs.Nodup) :
    ∃ t, insertAll (HashTable.new : HashTable K V) (ks.zip vs) = some t ∧
      t.cells.length = 95 ∧
      ∀ k v, (k, v) ∈ ks.zip vs → get t k = some v := by
  have hfresh : ∀ k ∈ ks,
      ¬ storedKey (HashTable.new : HashTable K V).cells k := by
    rintro k _ ⟨i, _, ht, _⟩
    exact absurd ht (takenAt_replicate _ _)
  obtain ⟨t, heq, hInv, hcnt, hlen, hall, _⟩ :=
    insertAll_spec ks vs HashTable.new Inv_new hnd hfresh (by omega)
  refine ⟨t, heq, ?_, ?_⟩
  · rw [hlen, hks, new_cells_length, new_taken_count]
    decide
  · intro k v hm
    exact get_of_stored hInv (hall (k, v) hm)

theorem growth_preserves_entries_witness :
    ∃ t, insertAll (HashTable.new : HashTable Nat Nat)
        ((List.range 50).zip (List.range 50)) = some t ∧
      t.cells.length = 95 ∧
      ∀ k v, (k, v) ∈ (List.range 50).zip (List.range 50) →
        get t k = some v :=
  growth_preserves_entries (List.range 50) (List.range 50)
    (by simp) (by simp) (List.nodup_range 50) (List.nodup_range 50)

/-- C3: on every reachable table, `taken_count ≤ cells.len()`, the backing
array length is odd and lies in the orbit of `L ↦ 2L+1` starting at 11;
and the length never decreases over the table's lifetime: an `insert` can
only grow it and a write through `get_mut` leaves it unchanged. -/
theorem capacity_invariant {t : HashTable K V} (hR : Reachable t) :
    t.taken_count ≤ t.cells.length ∧ Odd t.cells.length ∧
      IsCap t.cells.length ∧
      (∀ (k : K) (v : V) (t' : HashTable K V), insert t k v = some t' →
        t.cells.length ≤ t'.cells.length) ∧
      ∀ (k : K) (v : V), (writeThrough t k v).cells.length = t.cells.length := by
  have hInv := reachable_inv hR
  refine ⟨?_, hInv.cap.odd, hInv.cap, ?_, ?_⟩
  · rw [hInv.count_eq]
    exact countTaken_le _
  · intro k v t' heq
    obtain ⟨t2, heq2, _, _, _, _, hle, _⟩ := insert_total hInv k v
    rw [heq] at heq2
    obtain rfl := Option.some.inj heq2
    exact hle
  · intro k v
    cases hidx : get_index t k with
    | none => simp [writeThrough, hidx]
    | some i => simp [writeThrough, hidx, List.length_set]

theorem capacity_invariant_witness :
    (HashTable.new : HashTable Nat Nat).taken_count
        ≤ (HashTable.new : HashTable Nat Nat).cells.length ∧
      Odd (HashTable.new : HashTable Nat Nat).cells.length ∧
      IsCap (HashTable.new : HashTable Nat Nat).cells.length ∧
      (∀ (k v : Nat) (t' : HashTable Nat Nat),
        insert HashTable.new k v = some t' →
          (HashTable.new : HashTable Nat Nat).cells.length
            ≤ t'.cells.length) ∧
      ∀ k v : Nat,
        (writeThrough (HashTable.new : HashTable Nat Nat) k v).cells.length
          = (HashTable.new : HashTable Nat Nat).cells.length :=
  capacity_invariant Reachable.new

/-- C4: inserting `(k, v1)` and then `(k, v2)` on a reachable table leaves
the second insert an in-place update: `taken_count` and the backing array
are unchanged in size, `get k` returns `v2`, and exactly one occupied cell
holds key `k`. -/
theorem update_not_duplicate {t t1 t2 : HashTable K V} {k : K} {v1 v2 : V}
    (hR : Reachable t) (h1 : insert t k v1 = some t1)
    (h2 : insert t1 k v2 = some t2) :
    t2.taken_count = t1.taken_count ∧ t2.cells.length = t1.cells.length ∧
      get t2 k = some v2 ∧
      ∃ i, i < t2.cells.length ∧ takenAt t2.cells i ∧ keyAt t2.cells i = k ∧
        ∀ j, j < t2.cells.length → takenAt t2.cells j →
          keyAt t2.cells j = k → j = i := by
  have hInv := reachable_inv hR
  obtain ⟨t1', heq1, hInv1, hst1, _⟩ := insert_total hInv k v1
  rw [h1] at heq1
  obtain rfl := Option.some.inj heq1
  have hsk1 : storedKey t1.cells k := storedKey_iff.mpr ⟨v1, hst1⟩
  obtain ⟨t2', heq2, hInv2, hst2, _, _, _, hupd, _⟩ := insert_total hInv1 k v2
  rw [h2] at heq2
  obtain rfl := Option.some.inj heq2
  obtain ⟨hcnt, hlen⟩ := hupd hsk1
  refine ⟨hcnt, hlen, get_of_stored hInv2 hst2, ?_⟩
  obtain ⟨i, hiL, ht, hk, _⟩ := hst2
  exact ⟨i, hiL, ht, hk, fun j hjL htj hkj =>
    hInv2.uniq j i hjL hiL htj ht (by rw [hkj, hk])⟩

theorem update_not_duplicate_witness :
    ∃ t1 t2 : HashTable Nat Nat,
      insert HashTable.new 3 1 = some t1 ∧ insert t1 3 2 = some t2 ∧
      (t2.taken_count = t1.taken_count ∧ t2.cells.length = t1.cells.length ∧
        get t2 3 = some 2 ∧
        ∃ i, i < t2.cells.length ∧ takenAt t2.cells i ∧
          keyAt t2.cells i = 3 ∧
          ∀ j, j < t2.cells.length → takenAt t2.cells j →
            keyAt t2.cells j = 3 → j = i) := by
  have h1 : insert (HashTable.new : HashTable Nat Nat) 3 1
      = some ((insert (HashTable.new : HashTable Nat Nat) 3 1).getD
        HashTable.new) := by decide
  have h2 : insert ((insert (HashTable.new : HashTable Nat Nat) 3 1).getD
        HashTable.new) 3 2
      = some ((insert ((insert (HashTable.new : HashTable Nat Nat) 3 1).getD
        HashTable.new) 3 2).getD HashTable.new) := by decide
  exact ⟨_, _, h1, h2, update_not_duplicate Reachable.new h1 h2⟩

/-- C5: on reachable tables both fatal assertions are unreachable: the
backing array length is always ≥ 11, so `assert!(self.cells.len() > 0)` in
`extend` holds; and every `insert` runs to completion without a failed
assertion — in particular when the table is full, `extend` succeeds and
leaves `taken_count < cells.len()`, so the assertion after the
insertion-slot search holds. -/
theorem asserts_unreachable {t : HashTable K V} (hR : Reachable t) :
    11 ≤ t.cells.length ∧
      (∀ (k : K) (v : V), ∃ t', insert t k v = some t') ∧
      (t.cells.length ≤ t.taken_count →
        ∃ t2, extend t = some t2 ∧ t2.taken_count < t2.cells.length) := by
  have hInv := reachable_inv hR
  refine ⟨hInv.cap.eleven_le, ?_, ?_⟩
  · intro k v
    obtain ⟨t', heq, _⟩ := insert_total hInv k v
    exact ⟨t', heq⟩
  · intro hfull
    obtain ⟨t2, heq2, _, hlen2, hcnt2, _⟩ :=
      extend_spec hInv (by have := hInv.cap.eleven_le; omega)
    refine ⟨t2, heq2, ?_⟩
    rw [hcnt2, hlen2]
    have hle := countTaken_le t.cells
    have hc := hInv.count_eq
    omega

theorem asserts_unreachable_witness :
    11 ≤ (HashTable.new : HashTable Nat Nat).cells.length ∧
      (∀ k v : Nat,
        ∃ t', insert (HashTable.new : HashTable Nat Nat) k v = some t') ∧
      ((HashTable.new : HashTable Nat Nat).cells.length
          ≤ (HashTable.new : HashTable Nat Nat).taken_count →
        ∃ t2, extend (HashTable.new : HashTable Nat Nat) = some t2 ∧
          t2.taken_count < t2.cells.length) :=
  asserts_unreachable Reachable.new

/-- C7 counterexample: the completely full table `fullTable` is reachable
through the public API (11 inserts into a fresh table), its `taken_count`
equals its length, and the lookup probe scan for the absent key `11` —
exactly the scan `get`/`get_mut` run — visits all `L = 11` cells without
finding a match or an unoccupied cell.  This refutes the claim that at the
start of a lookup the scan always succeeds before having visited `L`
cells. -/
theorem probe_full_scan_counterexample :
    Reachable fullTable ∧
      fullTable.taken_count = fullTable.cells.length ∧
      get fullTable 11 = none ∧
      probeStops fullTable.cells 11
        (Hashable.hash 11 % fullTable.cells.length)
        fullTable.cells.length = false := by
  refine ⟨?_, by decide, by decide, by decide⟩
  exact reachable_insertAll ((List.range 11).map fun i => (i, 0))
    Reachable.new (by decide)

/-- C7 amended: on a reachable table that is not completely full
(`taken_count < cells.len()`), every lookup's probe scan stops at a match
or an unoccupied cell before having visited all `L` cells.  (On a
reachable completely full table a lookup of an absent key does visit all
`L` cells, as the counterexample shows; the lookup still returns `None`.) -/
theorem probe_stops_when_not_full {t : HashTable K V} (hR : Reachable t)
    (hroom : t.taken_count < t.cells.length) (k : K) :
    probeStops t.cells k (Hashable.hash k % t.cells.length)
      t.cells.length = true := by
  have hInv := reachable_inv hR
  have hL : 0 < t.cells.length := by omega
  have hs : Hashable.hash k % t.cells.length < t.cells.length :=
    Nat.mod_lt _ hL
  have hcnt : countTaken t.cells < t.cells.length := by
    rw [← hInv.count_eq]
    exact hroom
  obtain ⟨u, huL, hfree⟩ := exists_free hcnt hs
  exact probeStops_of_exists t.cells.length _ hs
    ⟨u, huL, Or.inl (not_takenAt_false hfree)⟩

theorem probe_stops_when_not_full_witness :
    probeStops (HashTable.new : HashTable Nat Nat).cells 0
      (Hashable.hash 0 % (HashTable.new : HashTable Nat Nat).cells.length)
      (HashTable.new : HashTable Nat Nat).cells.length = true :=
  probe_stops_when_not_full Reachable.new (by decide) 0

/-- C8: inserting 12 distinct keys into a fresh table of capacity 11:
after the first 11 inserts the capacity is still 11 with all 11 cells
occupied, so exactly the 12th insert triggers `extend()`, growing the
backing array to `11*2+1 = 23`; afterwards every one of the 12 keys maps
to its inserted value. -/
theorem twelfth_insert_extends (ks : List K) (vs : List V)
    (hks : ks.length = 12) (hvs : vs.length = 12) (hnd : ks.Nodup) :
    (∀ t11, insertAll (HashTable.new : HashTable K V)
        ((ks.take 11).zip (vs.take 11)) = some t11 →
      t11.cells.length = 11 ∧ t11.taken_count = 11) ∧
      ∃ t, insertAll (HashTable.new : HashTable K V) (ks.zip vs) = some t ∧
        t.cells.length = 23 ∧ t.taken_count = 12 ∧
        ∀ k v, (k, v) ∈ ks.zip vs → get t k = some v := by
  have hfresh : ∀ k' ∈ ks,
      ¬ storedKey (HashTable.new : HashTable K V).cells k' := by
    rintro k' _ ⟨i, _, ht, _⟩
    exact absurd ht (takenAt_replicate _ _)
  constructor
  · intro t11 heq11
    have hnd11 : (ks.take 11).Nodup :=
      (List.take_sublist 11 ks).nodup hnd
    have hfresh11 : ∀ k' ∈ ks.take 11,
        ¬ storedKey (HashTable.new : HashTable K V).cells k' :=
      fun k' hk' => hfresh k' (List.take_subset _ _ hk')
    have hlen11 : (vs.take 11).length = (ks.take 11).length := by
      simp [List.length_take, hks, hvs]
    obtain ⟨t', heq', hInv', hcnt', hlen', _, _⟩ :=
      insertAll_spec (ks.take 11) (vs.take 11) HashTable.new Inv_new
        hnd11 hfresh11 hlen11
    rw [heq11] at heq'
    obtain rfl := Option.some.inj heq'
    have htake : (ks.take 11).length = 11 := by
      simp [List.length_take, hks]
    constructor
    · rw [hlen', htake, new_cells_length, new_taken_count]
      decide
    · rw [hcnt', htake, new_taken_count]
  · obtain ⟨t, heq, hInv, hcnt, hlen, hall, _⟩ :=
      insertAll_spec ks vs HashTable.new Inv_new hnd hfresh (by omega)
    refine ⟨t, heq, ?_, ?_, ?_⟩
    · rw [hlen, hks, new_cells_length, new_taken_count]
      decide
    · rw [hcnt, hks, new_taken_count]
    · intro k v hm
      exact get_of_stored hInv (hall (k, v) hm)

theorem twelfth_insert_extends_witness :
    (∀ t11, insertAll (HashTable.new : HashTable Nat Nat)
        (((List.range 12).take 11).zip ((List.range 12).take 11)) = some t11 →
      t11.cells.length = 11 ∧ t11.taken_count = 11) ∧
      ∃ t, insertAll (HashTable.new : HashTable Nat Nat)
          ((List.range 12).zip (List.range 12)) = some t ∧
        t.cells.length = 23 ∧ t.taken_count = 12 ∧
        ∀ k v, (k, v) ∈ (List.range 12).zip (List.range 12) →
          get t k = some v :=
  twelfth_insert_extends (List.range 12) (List.range 12)
    (by simp) (by simp) (List.nodup_range 12)

/-- C9: starting from an empty table of capacity 11, inserting the keys
1, 12, 23 (all with digest ≡ 1 mod 11) places them at slots 1, 2, 3 of the
backing array by linear probing, and `get 12` returns its inserted value
while `get 1` and `get 23` still return theirs. -/
theorem collision_probe_scenario :
    ∃ t, insertAll (HashTable.new : HashTable Nat Nat)
        [(1, 10), (12, 120), (23, 230)] = some t ∧
      cellAt t.cells 1 = ⟨1, 10, true⟩ ∧
      cellAt t.cells 2 = ⟨12, 120, true⟩ ∧
      cellAt t.cells 3 = ⟨23, 230, true⟩ ∧
      get t 12 = some 120 ∧ get t 1 = some 10 ∧ get t 23 = some 230 := by
  refine ⟨(insertAll (HashTable.new : HashTable Nat Nat)
      [(1, 10), (12, 120), (23, 230)]).getD HashTable.new,
    ?_, ?_, ?_, ?_, ?_, ?_, ?_⟩ <;> decide

/-- C10: on a completely full table (`taken_count` equal to `cells.len()`,
every cell occupied), `get` and `get_mut` of a key that is stored in no
cell still terminate and return `none`: the probe loop is bounded by `L`
iterations and wraps back to the starting slot. -/
theorem full_table_lookup_returns_none {t : HashTable K V} {k : K}
    (hfull : t.taken_count = t.cells.length)
    (halltaken : ∀ i, i < t.cells.length → takenAt t.cells i)
    (habs : ∀ i, i < t.cells.length → keyAt t.cells i ≠ k)
    (hL : 0 < t.cells.length) :
    get t k = none ∧ get_mut t k = none ∧
      probeLoop t.cells k (Hashable.hash k % t.cells.length) t.cells.length
        = Hashable.hash k % t.cells.length := by
  have hnostore : ¬ storedKey t.cells k := by
    rintro ⟨i, hiL, _, hk⟩
    exact habs i hiL hk
  have hget : get t k = none := get_none_of_not_stored hnostore
  refine ⟨hget, by rw [get_mut]; exact hget, ?_⟩
  have hs : Hashable.hash k % t.cells.length < t.cells.length :=
    Nat.mod_lt _ hL
  have hadv := @probeLoop_advance K V _ _ _ _ t.cells k t.cells.length
    (Hashable.hash k % t.cells.length) t.cells.length hs (le_refl _) ?_
  · rw [hadv, Nat.sub_self, probeLoop, Nat.add_mod_right,
      Nat.mod_eq_of_lt hs]
  · intro u hu
    exact ⟨halltaken _ (Nat.mod_lt _ hL), habs _ (Nat.mod_lt _ hL)⟩

theorem full_table_lookup_returns_none_witness :
    get fullTable 11 = none ∧ get_mut fullTable 11 = none ∧
      probeLoop fullTable.cells 11
        (Hashable.hash 11 % fullTable.cells.length) fullTable.cells.length
        = Hashable.hash 11 % fullTable.cells.length :=
  full_table_lookup_returns_none (by decide) (by decide) (by decide)
    (by decide)

end Claims

end H4sh
